import Mathlib

/-!
Shallow embedding of `iox2::container::StaticString<N>`
(src/iceoryx2-bb/cxx/include/iox2/container/static_string.hpp).

`char` values are modelled as `Int` (the repository's tests rely on `char`
being signed: `0x80` is a negative value there).  The inline buffer
`char m_string[N + 1]` is modelled as a `List Int` of length `N + 1`,
zero-initialised (`= {}` in the source).  Each C++ member function becomes a
Lean function on the state; a mutating member returns the new state together
with its `bool` result.
-/

namespace Iox2

/-- The state of a `StaticString<N>`: the inline character buffer
`char m_string[N + 1]` and the length field `uint64_t m_size`. -/
structure StaticString (N : Nat) where
  m_string : List Int
  m_size : Nat
deriving DecidableEq, Repr

/-- Default construction: `m_string` is zero-initialised (`= {}`),
`m_size = 0`. -/
def mkEmpty (N : Nat) : StaticString N :=
  ⟨List.replicate (N + 1) 0, 0⟩

/-- `StaticString::is_valid_next`: `(character > 0) && (character <= 127)`. -/
def is_valid_next (character : Int) : Bool :=
  decide (0 < character) && decide (character ≤ 127)

/-- `StaticString::try_push_back`: if `m_size < N` and the character is a
valid next code unit, write it at index `m_size`, increment `m_size` and
return `true`; otherwise return `false` leaving the state untouched. -/
def try_push_back {N : Nat} (s : StaticString N) (character : Int) :
    StaticString N × Bool :=
  if s.m_size < N ∧ is_valid_next character = true then
    (⟨s.m_string.set s.m_size character, s.m_size + 1⟩, true)
  else
    (s, false)

/-- `StaticString::try_pop_back`: if `m_size > 0`, overwrite index
`m_size - 1` with the zero byte, decrement `m_size` and return `true`;
otherwise return `false` leaving the state untouched. -/
def try_pop_back {N : Nat} (s : StaticString N) : StaticString N × Bool :=
  if 0 < s.m_size then
    (⟨s.m_string.set (s.m_size - 1) 0, s.m_size - 1⟩, true)
  else
    (s, false)

/-- `StaticString::capacity()`. -/
def capacity (N : Nat) : Nat := N

/-- `StaticString::size()`. -/
def size {N : Nat} (s : StaticString N) : Nat := s.m_size

/-- `StaticString::empty()`. -/
def empty {N : Nat} (s : StaticString N) : Bool :=
  decide (size s = 0)

/-- The loop body shared by `from_utf8`: push each character in turn,
returning `nullopt` as soon as one push fails. -/
def pushAll {N : Nat} (s : StaticString N) : List Int → Option (StaticString N)
  | [] => some s
  | c :: cs =>
    if (try_push_back s c).2 then pushAll (try_push_back s c).1 cs else none

/-- `StaticString::from_utf8` on a statically sized array of `M = l.length`
characters.  The SFINAE constraint `N >= M - 1` (rejection at compile time
when the payload cannot fit) is modelled as `none`; then the body checks
`utf8_str[M - 1] != '\0'` and pushes the first `M - 1` characters, failing
wholesale if any push fails. -/
def from_utf8 (N : Nat) (utf8_str : List Int) : Option (StaticString N) :=
  if utf8_str.length ≤ N + 1 then
    if utf8_str.getD (utf8_str.length - 1) 0 ≠ 0 then
      none
    else
      pushAll (mkEmpty N) (utf8_str.take (utf8_str.length - 1))
  else
    none

/-- The scanning loop of `from_utf8_null_terminated_unchecked`:
`while (*utf8_str != '\0') { if (!try_push_back(*utf8_str)) return nullopt; ++utf8_str; }`.
The input list is the byte sequence starting at the pointer; the loop stops
at the first zero byte (or at the end of the modelled sequence). -/
def scanPush {N : Nat} (s : StaticString N) : List Int → Option (StaticString N)
  | [] => some s
  | c :: cs =>
    if c = 0 then some s
    else if (try_push_back s c).2 then scanPush (try_push_back s c).1 cs
    else none

/-- `StaticString::from_utf8_null_terminated_unchecked`. -/
def from_utf8_null_terminated_unchecked (N : Nat) (utf8_str : List Int) :
    Option (StaticString N) :=
  scanPush (mkEmpty N) utf8_str

/-- The copy loop of the widening constructor:
`for (i = 0; i < m_size; ++i) { m_string[i] = rhs.m_string[i]; }`,
executed on an already zero-initialised destination buffer. -/
def copyFrom (dst src : List Int) : Nat → List Int
  | 0 => dst
  | i + 1 => (copyFrom dst src i).set i (src.getD i 0)

/-- The widening constructor `StaticString<N>(StaticString<M> const&)`,
available only under the constraint `N >= M` (SFINAE); it copies `m_size`
and the first `m_size` characters into a zero-initialised buffer. -/
def widen (N : Nat) {M : Nat} (rhs : StaticString M) : StaticString N :=
  ⟨copyFrom (List.replicate (N + 1) 0) rhs.m_string rhs.m_size, rhs.m_size⟩

/-- `StaticString::element_at` (the mutable overload, which compiles):
a value is produced exactly when `index < m_size`. -/
def element_at {N : Nat} (s : StaticString N) (index : Nat) : Option Int :=
  if index < s.m_size then s.m_string[index]? else none

/-- `StaticString::front_element`: a value exactly when the string is
non-empty. -/
def front_element {N : Nat} (s : StaticString N) : Option Int :=
  if empty s = false then s.m_string[0]? else none

/-- `StaticString::back_element`: a value exactly when the string is
non-empty. -/
def back_element {N : Nat} (s : StaticString N) : Option Int :=
  if empty s = false then s.m_string[size s - 1]? else none

/-- `operator==(StaticString const&, StaticString const&)`: sizes must
match, then the characters of `[begin(), end())` — indices `0` to
`m_size - 1` of the buffer — are compared pairwise. -/
def beq {N : Nat} (lhs rhs : StaticString N) : Bool :=
  if lhs.m_size ≠ rhs.m_size then false
  else
    (List.range lhs.m_size).all fun i =>
      decide (lhs.m_string.getD i 0 = rhs.m_string.getD i 0)

/-- The states of `StaticString<N>` reachable through the public interface:
default construction, the two validated constructions, the widening copy
(under its constraint `M ≤ N`), `try_push_back` and `try_pop_back`.
Copy and move construction/assignment are identities on the state. -/
inductive Reachable : {N : Nat} → StaticString N → Prop
  | base (N : Nat) : Reachable (mkEmpty N)
  | of_utf8 {N : Nat} (l : List Int) (s : StaticString N) :
      from_utf8 N l = some s → Reachable s
  | of_c_str {N : Nat} (l : List Int) (s : StaticString N) :
      from_utf8_null_terminated_unchecked N l = some s → Reachable s
  | widening {M N : Nat} (h : M ≤ N) (s : StaticString M) :
      Reachable s → Reachable (widen N s)
  | push {N : Nat} (s : StaticString N) (c : Int) :
      Reachable s → Reachable (try_push_back s c).1
  | pop {N : Nat} (s : StaticString N) :
      Reachable s → Reachable (try_pop_back s).1

/-- Well-formedness of a `StaticString<N>` state: the buffer has its
declared `N + 1` slots, the length is within capacity, every slot from
`m_size` through `N` holds the zero byte, and every content byte lies in
`[1, 127]`. -/
def WF {N : Nat} (s : StaticString N) : Prop :=
  s.m_string.length = N + 1 ∧
  s.m_size ≤ N ∧
  (∀ i, i ≤ N → s.m_size ≤ i → s.m_string.getD i 0 = 0) ∧
  (∀ i, i < s.m_size → 1 ≤ s.m_string.getD i 0 ∧ s.m_string.getD i 0 ≤ 127)

instance {N : Nat} (s : StaticString N) : Decidable (WF s) := by
  unfold WF; infer_instance

/-- The logical content of a string state: the first `m_size` buffer bytes. -/
def content {N : Nat} (s : StaticString N) : List Int :=
  s.m_string.take s.m_size

/-! ### List helper lemmas -/

theorem getD_set_self (l : List Int) (i : Nat) (c : Int) (h : i < l.length) :
    (l.set i c).getD i 0 = c := by
  simp [List.getD_eq_getElem?_getD, List.getElem?_set_self', h]

theorem getD_set_ne (l : List Int) (i j : Nat) (c : Int) (h : i ≠ j) :
    (l.set i c).getD j 0 = l.getD j 0 := by
  simp [List.getD_eq_getElem?_getD, List.getElem?_set_ne h]

theorem getD_replicate (n i : Nat) : (List.replicate n (0 : Int)).getD i 0 = 0 := by
  rcases Nat.lt_or_ge i n with h | h
  · simp [List.getD_eq_getElem?_getD, List.getElem?_replicate, h]
  · have hle : (List.replicate n (0 : Int)).length ≤ i := by simpa using h
    simp [List.getD_eq_getElem?_getD, List.getElem?_eq_none hle]

theorem getD_take_lt (l : List Int) (n i : Nat) (h : i < n) :
    (l.take n).getD i 0 = l.getD i 0 := by
  simp [List.getD_eq_getElem?_getD, List.getElem?_take, h]

theorem set_getD_self (l : List Int) (i : Nat) (h : i < l.length) :
    l.set i (l.getD i 0) = l := by
  apply List.ext_getElem?
  intro j
  rcases eq_or_ne i j with rfl | hne
  · simp [List.getElem?_set_self', List.getD_eq_getElem?_getD,
      List.getElem?_eq_getElem h]
  · simp [List.getElem?_set_ne hne]

theorem take_succ_set (l : List Int) (n : Nat) (c : Int) (h : n < l.length) :
    (l.set n c).take (n + 1) = l.take n ++ [c] := by
  induction l generalizing n with
  | nil => simp at h
  | cons x xs ih =>
    cases n with
    | zero => simp
    | succ m => simp_all

/-! ### Characterisations of the primitive operations -/

theorem push_success_iff {N : Nat} (s : StaticString N) (c : Int) :
    (try_push_back s c).2 = true ↔ s.m_size < N ∧ 1 ≤ c ∧ c ≤ 127 := by
  unfold try_push_back
  split <;> rename_i h <;> simp [is_valid_next] at h ⊢ <;> omega

theorem push_of_success {N : Nat} (s : StaticString N) (c : Int)
    (h : (try_push_back s c).2 = true) :
    (try_push_back s c).1 = ⟨s.m_string.set s.m_size c, s.m_size + 1⟩ := by
  unfold try_push_back at h ⊢
  split at h <;> simp_all

theorem push_of_failure {N : Nat} (s : StaticString N) (c : Int)
    (h : (try_push_back s c).2 = false) : (try_push_back s c).1 = s := by
  unfold try_push_back at h ⊢
  by_cases hc : s.m_size < N ∧ is_valid_next c = true
  · rw [if_pos hc] at h
    simp at h
  · rw [if_neg hc]

theorem pop_success_iff {N : Nat} (s : StaticString N) :
    (try_pop_back s).2 = true ↔ 0 < s.m_size := by
  unfold try_pop_back
  split <;> simp_all

theorem pop_of_success {N : Nat} (s : StaticString N)
    (h : (try_pop_back s).2 = true) :
    (try_pop_back s).1 = ⟨s.m_string.set (s.m_size - 1) 0, s.m_size - 1⟩ := by
  unfold try_pop_back at h ⊢
  split at h <;> simp_all

theorem pop_of_failure {N : Nat} (s : StaticString N)
    (h : (try_pop_back s).2 = false) : (try_pop_back s).1 = s := by
  unfold try_pop_back at h ⊢
  by_cases hc : 0 < s.m_size
  · rw [if_pos hc] at h
    simp at h
  · rw [if_neg hc]

/-! ### Well-formedness preservation -/

theorem wf_mkEmpty (N : Nat) : WF (mkEmpty N) := by
  refine ⟨by simp [mkEmpty], by simp [mkEmpty], ?_, ?_⟩
  · intro i _ _
    simp [mkEmpty, getD_replicate]
  · intro i hi
    simp [mkEmpty] at hi

theorem wf_push {N : Nat} {s : StaticString N} (c : Int) (h : WF s) :
    WF (try_push_back s c).1 := by
  obtain ⟨hlen, hsz, htail, hrange⟩ := h
  rcases hb : (try_push_back s c).2 with _ | _
  · rw [push_of_failure s c hb]
    exact ⟨hlen, hsz, htail, hrange⟩
  · obtain ⟨hlt, hc1, hc2⟩ := (push_success_iff s c).mp hb
    rw [push_of_success s c hb]
    have hmlt : s.m_size < s.m_string.length := by omega
    refine ⟨by simp [hlen], by show s.m_size + 1 ≤ N; omega, ?_, ?_⟩
    · intro i hiN hise
      show (s.m_string.set s.m_size c).getD i 0 = 0
      have hise' : s.m_size + 1 ≤ i := hise
      rw [getD_set_ne _ _ _ _ (by omega)]
      exact htail i hiN (by omega)
    · intro i hi
      have hi' : i < s.m_size + 1 := hi
      show 1 ≤ (s.m_string.set s.m_size c).getD i 0 ∧
        (s.m_string.set s.m_size c).getD i 0 ≤ 127
      rcases Nat.lt_or_ge i s.m_size with hlo | hhi
      · rw [getD_set_ne _ _ _ _ (by omega)]
        exact hrange i hlo
      · have hie : i = s.m_size := by omega
        subst hie
        rw [getD_set_self _ _ _ hmlt]
        exact ⟨hc1, hc2⟩

theorem wf_pop {N : Nat} {s : StaticString N} (h : WF s) :
    WF (try_pop_back s).1 := by
  obtain ⟨hlen, hsz, htail, hrange⟩ := h
  rcases hb : (try_pop_back s).2 with _ | _
  · rw [pop_of_failure s hb]
    exact ⟨hlen, hsz, htail, hrange⟩
  · have hpos : 0 < s.m_size := (pop_success_iff s).mp hb
    rw [pop_of_success s hb]
    have hmlt : s.m_size - 1 < s.m_string.length := by omega
    refine ⟨by simp [hlen], by show s.m_size - 1 ≤ N; omega, ?_, ?_⟩
    · intro i hiN hise
      have hise' : s.m_size - 1 ≤ i := hise
      show (s.m_string.set (s.m_size - 1) 0).getD i 0 = 0
      rcases eq_or_ne (s.m_size - 1) i with hie | hne
      · subst hie
        rw [getD_set_self _ _ _ hmlt]
      · rw [getD_set_ne _ _ _ _ hne]
        exact htail i hiN (by omega)
    · intro i hi
      have hi' : i < s.m_size - 1 := hi
      show 1 ≤ (s.m_string.set (s.m_size - 1) 0).getD i 0 ∧
        (s.m_string.set (s.m_size - 1) 0).getD i 0 ≤ 127
      rw [getD_set_ne _ _ _ _ (by omega)]
      exact hrange i (by omega)

theorem size_push_success {N : Nat} (s : StaticString N) (c : Int)
    (h : (try_push_back s c).2 = true) :
    (try_push_back s c).1.m_size = s.m_size + 1 := by
  rw [push_of_success s c h]

theorem content_push_success {N : Nat} (s : StaticString N) (c : Int)
    (hwf : WF s) (h : (try_push_back s c).2 = true) :
    content (try_push_back s c).1 = content s ++ [c] := by
  obtain ⟨hlt, _, _⟩ := (push_success_iff s c).mp h
  rw [push_of_success s c h]
  show (s.m_string.set s.m_size c).take (s.m_size + 1) = s.m_string.take s.m_size ++ [c]
  exact take_succ_set _ _ _ (by rw [hwf.1]; omega)

/-! ### The push loop -/

theorem pushAll_isSome {N : Nat} :
    ∀ (l : List Int) (s : StaticString N), WF s →
      ((pushAll s l).isSome = true ↔
        s.m_size + l.length ≤ N ∧ ∀ b ∈ l, 1 ≤ b ∧ b ≤ 127)
  | [], s, hwf => by
    simp [pushAll, hwf.2.1]
  | c :: cs, s, hwf => by
    unfold pushAll
    rcases hb : (try_push_back s c).2 with _ | _
    · have hfail : ¬(s.m_size < N ∧ 1 ≤ c ∧ c ≤ 127) := by
        intro hcond
        have htrue := (push_success_iff s c).mpr hcond
        rw [htrue] at hb
        cases hb
      rw [if_neg Bool.false_ne_true]
      simp only [Option.isSome_none]
      constructor
      · intro hfalse
        cases hfalse
      · intro ⟨hlen, hall⟩
        have hlt : s.m_size < N := by
          simp only [List.length_cons] at hlen
          omega
        exact absurd ⟨hlt, hall c (by simp)⟩ hfail
    · obtain ⟨hlt, hc1, hc2⟩ := (push_success_iff s c).mp hb
      rw [if_pos rfl]
      rw [pushAll_isSome cs (try_push_back s c).1 (wf_push c hwf)]
      rw [size_push_success s c hb]
      constructor
      · intro ⟨hlen, hall⟩
        refine ⟨by simp only [List.length_cons]; omega, ?_⟩
        intro b hbmem
        rcases List.mem_cons.mp hbmem with rfl | hmem
        · exact ⟨hc1, hc2⟩
        · exact hall b hmem
      · intro ⟨hlen, hall⟩
        refine ⟨by simp only [List.length_cons] at hlen; omega, ?_⟩
        intro b hbmem
        exact hall b (List.mem_cons_of_mem c hbmem)

theorem pushAll_some {N : Nat} :
    ∀ (l : List Int) (s t : StaticString N), WF s → pushAll s l = some t →
      WF t ∧ t.m_size = s.m_size + l.length ∧ content t = content s ++ l
  | [], s, t, hwf, heq => by
    simp [pushAll] at heq
    subst heq
    exact ⟨hwf, by simp, by simp⟩
  | c :: cs, s, t, hwf, heq => by
    unfold pushAll at heq
    rcases hb : (try_push_back s c).2 with _ | _
    · rw [hb] at heq
      simp at heq
    · rw [hb, if_pos rfl] at heq
      obtain ⟨hwt, hsz, hct⟩ :=
        pushAll_some cs (try_push_back s c).1 t (wf_push c hwf) heq
      refine ⟨hwt, ?_, ?_⟩
      · rw [hsz, size_push_success s c hb]
        simp [Nat.add_assoc, Nat.add_comm 1 cs.length]
      · rw [hct, content_push_success s c hwf hb]
        simp

/-! ### The scanning loop -/

theorem scanPush_eq_pushAll {N : Nat} :
    ∀ (l : List Int) (s : StaticString N),
      scanPush s l = pushAll s (l.takeWhile fun c => !(decide (c = 0)))
  | [], s => by simp [scanPush, pushAll]
  | c :: cs, s => by
    unfold scanPush
    by_cases hc : c = 0
    · subst hc
      simp [List.takeWhile_cons, pushAll]
    · have htw : (c :: cs).takeWhile (fun c => !(decide (c = 0)))
        = c :: cs.takeWhile (fun c => !(decide (c = 0))) := by
        simp [List.takeWhile_cons, hc]
      rw [htw]
      unfold pushAll
      rcases hb : (try_push_back s c).2 with _ | _
      · simp [hc, hb]
      · simp only [hc, if_false, hb, if_true]
        exact scanPush_eq_pushAll cs (try_push_back s c).1

/-! ### Equality -/

theorem beq_iff {N : Nat} (s t : StaticString N) :
    beq s t = true ↔
      s.m_size = t.m_size ∧
        ∀ i, i < s.m_size → s.m_string.getD i 0 = t.m_string.getD i 0 := by
  unfold beq
  by_cases hsz : s.m_size = t.m_size
  · rw [if_neg (by simpa using hsz)]
    simp [List.all_eq_true, List.mem_range, hsz]
  · rw [if_pos hsz]
    simp [hsz]

/-! ### The widening copy -/

theorem length_copyFrom (dst src : List Int) :
    ∀ n, (copyFrom dst src n).length = dst.length
  | 0 => rfl
  | n + 1 => by
    unfold copyFrom
    rw [List.length_set, length_copyFrom dst src n]

theorem getD_copyFrom (dst src : List Int) :
    ∀ n, n ≤ dst.length → ∀ i,
      (copyFrom dst src n).getD i 0 =
        if i < n then src.getD i 0 else dst.getD i 0
  | 0, _, i => by simp [copyFrom]
  | n + 1, hn, i => by
    unfold copyFrom
    rcases eq_or_ne n i with rfl | hne
    · rw [getD_set_self _ _ _ (by rw [length_copyFrom]; omega)]
      rw [if_pos (by omega)]
    · rw [getD_set_ne _ _ _ _ hne,
        getD_copyFrom dst src n (by omega) i]
      rcases Nat.lt_or_ge i n with hlt | hge
      · rw [if_pos hlt, if_pos (by omega)]
      · rw [if_neg (by omega), if_neg (by omega)]

theorem wf_widen {M N : Nat} (hMN : M ≤ N) (s : StaticString M) (h : WF s) :
    WF (widen N s) := by
  obtain ⟨hlen, hsz, htail, hrange⟩ := h
  have hdst : (List.replicate (N + 1) (0 : Int)).length = N + 1 := by simp
  have hnle : s.m_size ≤ (List.replicate (N + 1) (0 : Int)).length := by
    rw [hdst]; omega
  refine ⟨?_, by show s.m_size ≤ N; omega, ?_, ?_⟩
  · show (copyFrom _ _ _).length = N + 1
    rw [length_copyFrom, hdst]
  · intro i _ hise
    have hise' : s.m_size ≤ i := hise
    show (copyFrom (List.replicate (N + 1) 0) s.m_string s.m_size).getD i 0 = 0
    rw [getD_copyFrom _ _ _ hnle i, if_neg (by omega)]
    exact getD_replicate _ _
  · intro i hi
    have hi' : i < s.m_size := hi
    show 1 ≤ (copyFrom (List.replicate (N + 1) 0) s.m_string s.m_size).getD i 0 ∧
      (copyFrom (List.replicate (N + 1) 0) s.m_string s.m_size).getD i 0 ≤ 127
    rw [getD_copyFrom _ _ _ hnle i, if_pos hi']
    exact hrange i hi'

theorem content_widen {M N : Nat} (hMN : M ≤ N) (s : StaticString M)
    (h : WF s) : content (widen N s) = content s := by
  obtain ⟨hlen, hsz, _, _⟩ := h
  have hnle : s.m_size ≤ (List.replicate (N + 1) (0 : Int)).length := by
    simp
    omega
  have hlen1 : (content (widen N s)).length = s.m_size := by
    show (List.take s.m_size (copyFrom (List.replicate (N + 1) 0)
      s.m_string s.m_size)).length = s.m_size
    rw [List.length_take, length_copyFrom]
    simp
    omega
  have hlen2 : (content s).length = s.m_size := by
    show (List.take s.m_size s.m_string).length = s.m_size
    rw [List.length_take, hlen]
    omega
  apply List.ext_getElem (by rw [hlen1, hlen2])
  intro i h1 h2
  have hi : i < s.m_size := by
    rw [hlen1] at h1
    exact h1
  rw [← List.getD_eq_getElem _ 0, ← List.getD_eq_getElem _ 0]
  show ((copyFrom (List.replicate (N + 1) 0) s.m_string s.m_size).take
      s.m_size).getD i 0 = (s.m_string.take s.m_size).getD i 0
  rw [getD_take_lt _ _ _ hi, getD_take_lt _ _ _ hi,
    getD_copyFrom _ _ _ hnle i, if_pos hi]

/-! ### All reachable states are well-formed -/

theorem wf_from_utf8 {N : Nat} (l : List Int) (s : StaticString N)
    (h : from_utf8 N l = some s) : WF s := by
  unfold from_utf8 at h
  by_cases h1 : l.length ≤ N + 1
  · rw [if_pos h1] at h
    by_cases h2 : l.getD (l.length - 1) 0 ≠ 0
    · rw [if_pos h2] at h
      cases h
    · rw [if_neg h2] at h
      exact (pushAll_some _ _ _ (wf_mkEmpty N) h).1
  · rw [if_neg h1] at h
    cases h

theorem wf_from_c_str {N : Nat} (l : List Int) (s : StaticString N)
    (h : from_utf8_null_terminated_unchecked N l = some s) : WF s := by
  unfold from_utf8_null_terminated_unchecked at h
  rw [scanPush_eq_pushAll] at h
  exact (pushAll_some _ _ _ (wf_mkEmpty N) h).1

theorem wf_reachable {N : Nat} (s : StaticString N) (h : Reachable s) :
    WF s := by
  induction h with
  | base N => exact wf_mkEmpty N
  | of_utf8 l s hsome => exact wf_from_utf8 l s hsome
  | of_c_str l s hsome => exact wf_from_c_str l s hsome
  | widening hMN s _ ih => exact wf_widen hMN s ih
  | push s c _ ih => exact wf_push c ih
  | pop s _ ih => exact wf_pop ih

/-! ### Claim theorems -/

/-- C1: for every `StaticString<N>` reachable by any sequence of public
operations, the four data-model invariants hold: `0 ≤ length ≤ N`;
`storage[length]` is a zero byte; no zero byte appears at any index
`< length`; and every byte at index `< length` lies in `[1, 127]`. -/
theorem claim_C1_invariants {N : Nat} (s : StaticString N) (h : Reachable s) :
    size s ≤ N ∧
    s.m_string.getD (size s) 0 = 0 ∧
    (∀ i, i < size s → s.m_string.getD i 0 ≠ 0) ∧
    (∀ i, i < size s → 1 ≤ s.m_string.getD i 0 ∧ s.m_string.getD i 0 ≤ 127) := by
  obtain ⟨hlen, hsz, htail, hrange⟩ := wf_reachable s h
  refine ⟨hsz, htail s.m_size hsz (Nat.le_refl _), ?_, hrange⟩
  intro i hi
  have := hrange i hi
  omega

/-- C1 witness: the invariants instantiated at the reachable state obtained
by pushing one byte onto an empty capacity-2 string. -/
theorem claim_C1_invariants_witness :
    size (try_push_back (mkEmpty 2) 65).1 ≤ 2 ∧
    (try_push_back (mkEmpty 2) 65).1.m_string.getD
      (size (try_push_back (mkEmpty 2) 65).1) 0 = 0 ∧
    (∀ i, i < size (try_push_back (mkEmpty 2) 65).1 →
      (try_push_back (mkEmpty 2) 65).1.m_string.getD i 0 ≠ 0) ∧
    (∀ i, i < size (try_push_back (mkEmpty 2) 65).1 →
      1 ≤ (try_push_back (mkEmpty 2) 65).1.m_string.getD i 0 ∧
      (try_push_back (mkEmpty 2) 65).1.m_string.getD i 0 ≤ 127) :=
  claim_C1_invariants (try_push_back (mkEmpty 2) 65).1
    (Reachable.push (mkEmpty 2) 65 (Reachable.base 2))

/-- C2: `try_push_back` succeeds and appends `b` iff `size() < N` and
`b ∈ [1, 127]`; otherwise it fails with no effect; in particular it fails
without effect once `size() = N` (and hence always on a capacity-0
string, where `size() < 0` is impossible). -/
theorem claim_C2_try_push_back {N : Nat} (s : StaticString N) (b : Int)
    (hlen : s.m_string.length = N + 1) :
    ((try_push_back s b).2 = true ↔ size s < N ∧ 1 ≤ b ∧ b ≤ 127) ∧
    ((try_push_back s b).2 = true →
      size (try_push_back s b).1 = size s + 1 ∧
      element_at (try_push_back s b).1 (size s) = some b ∧
      ∀ i, i < size s → element_at (try_push_back s b).1 i = element_at s i) ∧
    ((try_push_back s b).2 = false → (try_push_back s b).1 = s) ∧
    (size s = N →
      (try_push_back s b).2 = false ∧ (try_push_back s b).1 = s) := by
  have hfail : (try_push_back s b).2 = false → (try_push_back s b).1 = s :=
    push_of_failure s b
  refine ⟨push_success_iff s b, ?_, hfail, ?_⟩
  · intro hsucc
    obtain ⟨hlt, hb1, hb2⟩ := (push_success_iff s b).mp hsucc
    rw [push_of_success s b hsucc]
    refine ⟨rfl, ?_, ?_⟩
    · show element_at ⟨s.m_string.set s.m_size b, s.m_size + 1⟩ s.m_size = some b
      unfold element_at
      rw [if_pos (by show s.m_size < s.m_size + 1; omega)]
      exact List.getElem?_set_eq_of_lt b (by omega)
    · intro i hi
      have hi' : i < s.m_size := hi
      show element_at ⟨s.m_string.set s.m_size b, s.m_size + 1⟩ i = element_at s i
      unfold element_at
      rw [if_pos (by show i < s.m_size + 1; omega), if_pos hi']
      exact List.getElem?_set_ne (show s.m_size ≠ i by omega)
  · intro hN
    have hne : (try_push_back s b).2 ≠ true := by
      intro htrue
      obtain ⟨hlt, _, _⟩ := (push_success_iff s b).mp htrue
      have : s.m_size = N := hN
      omega
    have hfb : (try_push_back s b).2 = false := Bool.eq_false_iff.mpr hne
    exact ⟨hfb, hfail hfb⟩

/-- C2 witness: instantiated at an empty capacity-2 string and the
byte 65, where the append succeeds. -/
theorem claim_C2_try_push_back_witness :
    ((try_push_back (mkEmpty 2) 65).2 = true ↔
      size (mkEmpty 2) < 2 ∧ 1 ≤ (65 : Int) ∧ (65 : Int) ≤ 127) ∧
    ((try_push_back (mkEmpty 2) 65).2 = true →
      size (try_push_back (mkEmpty 2) 65).1 = size (mkEmpty 2) + 1 ∧
      element_at (try_push_back (mkEmpty 2) 65).1 (size (mkEmpty 2)) = some 65 ∧
      ∀ i, i < size (mkEmpty 2) →
        element_at (try_push_back (mkEmpty 2) 65).1 i = element_at (mkEmpty 2) i) ∧
    ((try_push_back (mkEmpty 2) 65).2 = false →
      (try_push_back (mkEmpty 2) 65).1 = mkEmpty 2) ∧
    (size (mkEmpty 2) = 2 →
      (try_push_back (mkEmpty 2) 65).2 = false ∧
      (try_push_back (mkEmpty 2) 65).1 = mkEmpty 2) :=
  claim_C2_try_push_back (mkEmpty 2) 65 (by decide)

/-- C5: `try_pop_back` succeeds iff the string is non-empty, in which case
it removes the last byte and restores a zero terminator in that slot; on an
empty string it fails leaving the string unchanged, and repeated calls keep
failing with no effect. -/
theorem claim_C5_try_pop_back {N : Nat} (s : StaticString N) :
    ((try_pop_back s).2 = true ↔ 0 < size s) ∧
    ((try_pop_back s).2 = true →
      size (try_pop_back s).1 = size s - 1 ∧
      (try_pop_back s).1.m_string = s.m_string.set (size s - 1) 0) ∧
    (size s = 0 →
      (try_pop_back s).2 = false ∧ (try_pop_back s).1 = s ∧
      (try_pop_back (try_pop_back s).1).2 = false ∧
      (try_pop_back (try_pop_back s).1).1 = s) := by
  refine ⟨pop_success_iff s, ?_, ?_⟩
  · intro hsucc
    rw [pop_of_success s hsucc]
    exact ⟨rfl, rfl⟩
  · intro h0
    have hne : (try_pop_back s).2 ≠ true := by
      intro htrue
      have := (pop_success_iff s).mp htrue
      have h0' : s.m_size = 0 := h0
      omega
    have hfb : (try_pop_back s).2 = false := Bool.eq_false_iff.mpr hne
    have hid : (try_pop_back s).1 = s := pop_of_failure s hfb
    refine ⟨hfb, hid, ?_, ?_⟩
    · rw [hid]
      exact hfb
    · rw [hid]
      exact hid

/-- C5 witness: instantiated at the empty capacity-2 string, where popping
fails idempotently. -/
theorem claim_C5_try_pop_back_witness :
    ((try_pop_back (mkEmpty 2)).2 = true ↔ 0 < size (mkEmpty 2)) ∧
    ((try_pop_back (mkEmpty 2)).2 = true →
      size (try_pop_back (mkEmpty 2)).1 = size (mkEmpty 2) - 1 ∧
      (try_pop_back (mkEmpty 2)).1.m_string =
        (mkEmpty 2).m_string.set (size (mkEmpty 2) - 1) 0) ∧
    (size (mkEmpty 2) = 0 →
      (try_pop_back (mkEmpty 2)).2 = false ∧
      (try_pop_back (mkEmpty 2)).1 = mkEmpty 2 ∧
      (try_pop_back (try_pop_back (mkEmpty 2)).1).2 = false ∧
      (try_pop_back (try_pop_back (mkEmpty 2)).1).1 = mkEmpty 2) :=
  claim_C5_try_pop_back (mkEmpty 2)

/-- C9: for every reachable `StaticString<N>`, every storage slot at index
in `[length, N]` holds the zero byte — not merely the slot at index
`length`; no stale content remains beyond the current length. -/
theorem claim_C9_zero_tail {N : Nat} (s : StaticString N) (h : Reachable s) :
    s.m_string.length = N + 1 ∧
    ∀ i, size s ≤ i → i ≤ N → s.m_string.getD i 0 = 0 := by
  obtain ⟨hlen, hsz, htail, hrange⟩ := wf_reachable s h
  exact ⟨hlen, fun i hge hle => htail i hle hge⟩

/-- C9 witness: instantiated at the reachable state push(65) then pop,
whose freed slot is zeroed again. -/
theorem claim_C9_zero_tail_witness :
    (try_pop_back (try_push_back (mkEmpty 2) 65).1).1.m_string.length = 2 + 1 ∧
    ∀ i, size (try_pop_back (try_push_back (mkEmpty 2) 65).1).1 ≤ i → i ≤ 2 →
      (try_pop_back (try_push_back (mkEmpty 2) 65).1).1.m_string.getD i 0 = 0 :=
  claim_C9_zero_tail (try_pop_back (try_push_back (mkEmpty 2) 65).1).1
    (Reachable.pop (try_push_back (mkEmpty 2) 65).1
      (Reachable.push (mkEmpty 2) 65 (Reachable.base 2)))

/-- C10: on a well-formed state with room left and a valid byte, a
successful `try_push_back` followed by `try_pop_back` restores exactly the
original state, every storage byte included: the popped slot is rewritten
to zero, which was its value before the push. -/
theorem claim_C10_push_pop_roundtrip {N : Nat} (s : StaticString N) (b : Int)
    (hwf : WF s) (hsz : size s < N) (hb1 : 1 ≤ b) (hb2 : b ≤ 127) :
    (try_push_back s b).2 = true ∧
    (try_pop_back (try_push_back s b).1).2 = true ∧
    (try_pop_back (try_push_back s b).1).1 = s := by
  obtain ⟨hlen, _, htail, _⟩ := hwf
  have hsucc : (try_push_back s b).2 = true :=
    (push_success_iff s b).mpr ⟨hsz, hb1, hb2⟩
  have hpush := push_of_success s b hsucc
  have hpop : (try_pop_back (try_push_back s b).1).2 = true := by
    rw [pop_success_iff, hpush]
    show 0 < s.m_size + 1
    omega
  refine ⟨hsucc, hpop, ?_⟩
  rw [pop_of_success _ hpop, hpush]
  have hslot : s.m_string.getD s.m_size 0 = 0 :=
    htail s.m_size (by omega) (Nat.le_refl _)
  have hmlt : s.m_size < s.m_string.length := by omega
  show (⟨(s.m_string.set s.m_size b).set (s.m_size + 1 - 1) 0,
    s.m_size + 1 - 1⟩ : StaticString N) = s
  have hidx : s.m_size + 1 - 1 = s.m_size := by omega
  rw [hidx, List.set_set]
  rw [show (0 : Int) = s.m_string.getD s.m_size 0 from hslot.symm]
  rw [set_getD_self s.m_string s.m_size hmlt]

/-- C10 witness: push 66 then pop on the state holding one byte 65 in a
capacity-2 string. -/
theorem claim_C10_push_pop_roundtrip_witness :
    (try_push_back (try_push_back (mkEmpty 2) 65).1 66).2 = true ∧
    (try_pop_back (try_push_back (try_push_back (mkEmpty 2) 65).1 66).1).2 = true ∧
    (try_pop_back (try_push_back (try_push_back (mkEmpty 2) 65).1 66).1).1 =
      (try_push_back (mkEmpty 2) 65).1 :=
  claim_C10_push_pop_roundtrip (try_push_back (mkEmpty 2) 65).1 66
    (by decide) (by decide) (by decide) (by decide)

/-- The capacity-3 string holding "AB", built by two appends. -/
def abCap3 : StaticString 3 :=
  (try_push_back (try_push_back (mkEmpty 3) 65).1 66).1

/-- The capacity-5 string holding "AB", built by two appends. -/
def abCap5 : StaticString 5 :=
  (try_push_back (try_push_back (mkEmpty 5) 65).1 66).1

/-- C3: `from_utf8` succeeds iff the payload (source minus final
terminator slot) fits in `N`, every payload byte is in `[1, 127]`, and
the final byte is the zero terminator; otherwise no value and no partial
result.  The literal "ABC" with terminator succeeds into capacity 3 with
size 3 and content "ABC", and fails into capacity 2. -/
theorem claim_C3_from_utf8 (N : Nat) (l : List Int) (hne : l ≠ []) :
    ((from_utf8 N l).isSome = true ↔
      l.length - 1 ≤ N ∧
      (∀ b ∈ l.take (l.length - 1), 1 ≤ b ∧ b ≤ 127) ∧
      l.getD (l.length - 1) 0 = 0) ∧
    (∀ s, from_utf8 N l = some s →
      size s = l.length - 1 ∧ content s = l.take (l.length - 1)) ∧
    from_utf8 3 [65, 66, 67, 0] = some ⟨[65, 66, 67, 0], 3⟩ ∧
    from_utf8 2 [65, 66, 67, 0] = none := by
  have hpaylen : (l.take (l.length - 1)).length = l.length - 1 := by
    rw [List.length_take]
    omega
  have hm0 : (mkEmpty N).m_size = 0 := rfl
  refine ⟨?_, ?_, by decide, by decide⟩
  · unfold from_utf8
    by_cases h1 : l.length ≤ N + 1
    · rw [if_pos h1]
      by_cases h2 : l.getD (l.length - 1) 0 ≠ 0
      · rw [if_pos h2]
        simp only [Option.isSome_none]
        constructor
        · intro hf
          cases hf
        · intro ⟨_, _, hz⟩
          exact absurd hz h2
      · rw [if_neg h2]
        push_neg at h2
        rw [pushAll_isSome _ _ (wf_mkEmpty N), hm0, hpaylen]
        constructor
        · intro ⟨ha, hb⟩
          exact ⟨by omega, hb, h2⟩
        · intro ⟨ha, hb, _⟩
          exact ⟨by omega, hb⟩
    · rw [if_neg h1]
      simp only [Option.isSome_none]
      constructor
      · intro hf
        cases hf
      · intro ⟨ha, _, _⟩
        exact absurd (by omega : l.length ≤ N + 1) h1
  · intro s hs
    unfold from_utf8 at hs
    by_cases h1 : l.length ≤ N + 1
    · rw [if_pos h1] at hs
      by_cases h2 : l.getD (l.length - 1) 0 ≠ 0
      · rw [if_pos h2] at hs
        cases hs
      · rw [if_neg h2] at hs
        obtain ⟨_, hsz, hct⟩ := pushAll_some _ _ _ (wf_mkEmpty N) hs
        constructor
        · show s.m_size = l.length - 1
          rw [hsz, hm0, hpaylen]
          omega
        · rw [hct, show content (mkEmpty N) = [] from rfl]
          simp
    · rw [if_neg h1] at hs
      cases hs

/-- C3 witness: instantiated at capacity 3 and the terminated source
"AB". -/
theorem claim_C3_from_utf8_witness :
    ((from_utf8 3 [65, 66, 0]).isSome = true ↔
      ([65, 66, 0] : List Int).length - 1 ≤ 3 ∧
      (∀ b ∈ ([65, 66, 0] : List Int).take (([65, 66, 0] : List Int).length - 1),
        1 ≤ b ∧ b ≤ 127) ∧
      ([65, 66, 0] : List Int).getD (([65, 66, 0] : List Int).length - 1) 0 = 0) ∧
    (∀ s, from_utf8 3 [65, 66, 0] = some s →
      size s = ([65, 66, 0] : List Int).length - 1 ∧
      content s = ([65, 66, 0] : List Int).take (([65, 66, 0] : List Int).length - 1)) ∧
    from_utf8 3 [65, 66, 67, 0] = some ⟨[65, 66, 67, 0], 3⟩ ∧
    from_utf8 2 [65, 66, 67, 0] = none :=
  claim_C3_from_utf8 3 [65, 66, 0] (by decide)

/-- C4: `from_utf8_null_terminated_unchecked` is all-or-nothing: it yields
a value iff the bytes before the terminator all lie in `[1, 127]` and fit
in `N`, in which case the content is exactly those bytes; otherwise no
value, never a truncated string.  The sequence "AB\x80CD" (0x80 being the
negative signed char -128) into capacity 10 fails entirely. -/
theorem claim_C4_from_runtime (N : Nat) (l : List Int) :
    ((from_utf8_null_terminated_unchecked N l).isSome = true ↔
      (l.takeWhile fun c => !(decide (c = 0))).length ≤ N ∧
      ∀ b ∈ l.takeWhile fun c => !(decide (c = 0)), 1 ≤ b ∧ b ≤ 127) ∧
    (∀ s, from_utf8_null_terminated_unchecked N l = some s →
      size s = (l.takeWhile fun c => !(decide (c = 0))).length ∧
      content s = l.takeWhile fun c => !(decide (c = 0))) ∧
    from_utf8_null_terminated_unchecked 10 [65, 66, -128, 67, 68, 0] = none := by
  have hm0 : (mkEmpty N).m_size = 0 := rfl
  refine ⟨?_, ?_, by decide⟩
  · unfold from_utf8_null_terminated_unchecked
    rw [scanPush_eq_pushAll, pushAll_isSome _ _ (wf_mkEmpty N), hm0]
    constructor
    · intro ⟨ha, hb⟩
      exact ⟨by omega, hb⟩
    · intro ⟨ha, hb⟩
      exact ⟨by omega, hb⟩
  · intro s hs
    unfold from_utf8_null_terminated_unchecked at hs
    rw [scanPush_eq_pushAll] at hs
    obtain ⟨_, hsz, hct⟩ := pushAll_some _ _ _ (wf_mkEmpty N) hs
    constructor
    · show s.m_size = _
      rw [hsz, hm0]
      omega
    · rw [hct, show content (mkEmpty N) = [] from rfl]
      simp

/-- C4 witness: instantiated at capacity 10 and the terminated valid
sequence "AB". -/
theorem claim_C4_from_runtime_witness :
    ((from_utf8_null_terminated_unchecked 10 [65, 66, 0]).isSome = true ↔
      (([65, 66, 0] : List Int).takeWhile fun c => !(decide (c = 0))).length ≤ 10 ∧
      ∀ b ∈ ([65, 66, 0] : List Int).takeWhile fun c => !(decide (c = 0)),
        1 ≤ b ∧ b ≤ 127) ∧
    (∀ s, from_utf8_null_terminated_unchecked 10 [65, 66, 0] = some s →
      size s = (([65, 66, 0] : List Int).takeWhile fun c => !(decide (c = 0))).length ∧
      content s = ([65, 66, 0] : List Int).takeWhile fun c => !(decide (c = 0))) ∧
    from_utf8_null_terminated_unchecked 10 [65, 66, -128, 67, 68, 0] = none :=
  claim_C4_from_runtime 10 [65, 66, 0]

/-- C6: equality is reflexive, symmetric and transitive; it holds iff the
sizes match and every byte at index in `[0, size())` is pairwise equal;
capacity is not part of the contract: the capacity-3 string "AB", widened
for comparison as in the C++ overload resolution, equals the capacity-5
string "AB". -/
theorem claim_C6_equality {N : Nat} (s t u : StaticString N) :
    beq s s = true ∧
    (beq s t = true → beq t s = true) ∧
    (beq s t = true → beq t u = true → beq s u = true) ∧
    (beq s t = true ↔
      size s = size t ∧
        ∀ i, i < size s → s.m_string.getD i 0 = t.m_string.getD i 0) ∧
    beq (widen 5 abCap3) abCap5 = true := by
  refine ⟨?_, ?_, ?_, beq_iff s t, by decide⟩
  · exact (beq_iff s s).mpr ⟨rfl, fun i _ => rfl⟩
  · intro hst
    obtain ⟨hsz, hb⟩ := (beq_iff s t).mp hst
    exact (beq_iff t s).mpr ⟨hsz.symm, fun i hi => (hb i (by omega)).symm⟩
  · intro hst htu
    obtain ⟨hsz1, hb1⟩ := (beq_iff s t).mp hst
    obtain ⟨hsz2, hb2⟩ := (beq_iff t u).mp htu
    exact (beq_iff s u).mpr
      ⟨hsz1.trans hsz2, fun i hi => (hb1 i hi).trans (hb2 i (by omega))⟩

/-- C6 witness: instantiated with three copies of the capacity-3 string
"AB". -/
theorem claim_C6_equality_witness :
    beq abCap3 abCap3 = true ∧
    (beq abCap3 abCap3 = true → beq abCap3 abCap3 = true) ∧
    (beq abCap3 abCap3 = true → beq abCap3 abCap3 = true →
      beq abCap3 abCap3 = true) ∧
    (beq abCap3 abCap3 = true ↔
      size abCap3 = size abCap3 ∧
        ∀ i, i < size abCap3 →
          abCap3.m_string.getD i 0 = abCap3.m_string.getD i 0) ∧
    beq (widen 5 abCap3) abCap5 = true :=
  claim_C6_equality abCap3 abCap3 abCap3

/-- C7: the bounds-checked accessors, as they were intended to behave (the
non-const overloads, which do compile), report presence exactly on valid
indices; evaluated on the capacity-3 string "AB" and on an empty string.
The const overloads themselves are ill-formed in the source (indirection
on a plain char, and a non-const reference wrapper built from const
storage), so they cannot report anything — see the claim's result entry. -/
theorem claim_C7_checked_access :
    element_at abCap3 0 = some 65 ∧
    element_at abCap3 1 = some 66 ∧
    element_at abCap3 2 = none ∧
    element_at abCap3 3 = none ∧
    front_element abCap3 = some 65 ∧
    back_element abCap3 = some 66 ∧
    front_element (mkEmpty 3) = none ∧
    back_element (mkEmpty 3) = none ∧
    element_at (mkEmpty 3) 0 = none := by
  decide

/-- C8: for every capacity `N` and valid byte sequence of length `L ≤ N`,
performing the `L` appends on an initially empty string succeeds and
yields `size() = L`, and the result compares equal exactly to the strings
holding identical bytes at identical length. -/
theorem claim_C8_append_sequence (N : Nat) (l : List Int)
    (hlen : l.length ≤ N) (hval : ∀ b ∈ l, 1 ≤ b ∧ b ≤ 127) :
    ∃ s : StaticString N, pushAll (mkEmpty N) l = some s ∧
      size s = l.length ∧
      ∀ t : StaticString N,
        (beq s t = true ↔
          size t = l.length ∧
            ∀ i, i < l.length → t.m_string.getD i 0 = l.getD i 0) := by
  have hm0 : (mkEmpty N).m_size = 0 := rfl
  have hsome : (pushAll (mkEmpty N) l).isSome = true := by
    rw [pushAll_isSome _ _ (wf_mkEmpty N), hm0]
    exact ⟨by omega, hval⟩
  obtain ⟨s, hs⟩ := Option.isSome_iff_exists.mp hsome
  obtain ⟨hwf, hsz, hct⟩ := pushAll_some _ _ _ (wf_mkEmpty N) hs
  have hsz' : s.m_size = l.length := by
    rw [hsz, hm0]
    omega
  have htake : s.m_string.take s.m_size = l := by
    have := hct
    rw [show content (mkEmpty N) = [] from rfl] at this
    simpa [content] using this
  have hbyte : ∀ i, i < l.length → s.m_string.getD i 0 = l.getD i 0 := by
    intro i hi
    calc s.m_string.getD i 0
        = (s.m_string.take s.m_size).getD i 0 :=
          (getD_take_lt _ _ _ (by omega)).symm
      _ = l.getD i 0 := by rw [htake]
  refine ⟨s, hs, hsz', ?_⟩
  intro t
  rw [beq_iff]
  constructor
  · intro ⟨h1, h2⟩
    refine ⟨by show t.m_size = l.length; omega, ?_⟩
    intro i hi
    rw [← h2 i (by omega), hbyte i hi]
  · intro ⟨h1, h2⟩
    have h1' : t.m_size = l.length := h1
    refine ⟨by omega, ?_⟩
    intro i hi
    rw [hbyte i (by omega), h2 i (by omega)]

/-- C8 witness: instantiated at capacity 3 and the two-byte sequence
"AB". -/
theorem claim_C8_append_sequence_witness :
    ∃ s : StaticString 3, pushAll (mkEmpty 3) [65, 66] = some s ∧
      size s = ([65, 66] : List Int).length ∧
      ∀ t : StaticString 3,
        (beq s t = true ↔
          size t = ([65, 66] : List Int).length ∧
            ∀ i, i < ([65, 66] : List Int).length →
              t.m_string.getD i 0 = ([65, 66] : List Int).getD i 0) :=
  claim_C8_append_sequence 3 [65, 66] (by decide) (by decide)

end Iox2
